import Mathlib

/-!
Verification of the gatling-statistics repository.

The repository ships two Python files under version control here:
`build.py` (version stamping from git metadata) and
`test_trace_mapping.py` (regression tests for the `gstat` core).
The `gstat` core itself (log ingestion, the aggregate store, the
statistics engine and the trace layout planner) is specified in the
design document; the definitions below that embed it are each marked
`Modelled from the spec:` and follow the specification text.
`build.py` is embedded directly from its source.

All machine integers are modelled as `Nat` (no arithmetic in the code
can overflow 64-bit in practice and Python integers are unbounded);
Python floats are modelled as exact rationals (`Rat`); fallible
operations return `Option` or `Except`.
-/

/-! ## Record model -/

/-- Modelled from the spec: outcome of one request row
(`status` is OK or KO). -/
inductive ReqStatus where
  | ok
  | ko
deriving DecidableEq, Repr

/-- Modelled from the spec: a `request` log record, carrying the
group-hierarchy path (ordered sequence of string segments, possibly
empty), the request name, the status, timestamps and the response
time in milliseconds. -/
structure RequestEvent where
  group_hierarchy : List String
  request_name : String
  status : ReqStatus
  start_timestamp : Nat
  end_timestamp : Nat
  response_time_ms : Nat
deriving DecidableEq, Repr

/-- Modelled from the spec: one log record, discriminated by kind:
a `user` lifecycle record (ignored by aggregation) or a `request`
outcome record. -/
inductive LogRecord where
  | user
  | request (e : RequestEvent)
deriving DecidableEq, Repr

/-! ## Identity resolver -/

/-- Modelled from the spec: join a sequence of segments with the fixed
delimiter bar character (used on hierarchy-plus-name sequences, which
are always non-empty). -/
def joinPath : List String → String
  | [] => ""
  | [s] => s
  | s :: t :: rest => s ++ "|" ++ joinPath (t :: rest)

/-- Modelled from the spec: the full request path of a RequestEvent is
the hierarchy segments joined by the delimiter, then the request name;
a missing hierarchy is the empty sequence, so the path is then the bare
request name.  Pure function of (group_hierarchy, request_name). -/
def full_request_path (e : RequestEvent) : String :=
  joinPath (e.group_hierarchy ++ [e.request_name])

/-! ## Association lists with string keys, insertion ordered

The aggregate store is a three-level mapping that must enumerate its
keys in first-seen insertion order, so it is embedded as nested
association lists where a new key is appended at the tail. -/

/-- Keys of an association list, in insertion order. -/
def keysOf {β : Type} (xs : List (String × β)) : List String :=
  xs.map Prod.fst

/-- First-match lookup in an association list. -/
def lookupA {β : Type} : List (String × β) → String → Option β
  | [], _ => none
  | p :: ps, k => if p.1 = k then some p.2 else lookupA ps k

/-- Update the value at key `k` through `f` (starting from the default
`d` and appending the key at the tail when it is new). -/
def upsert {β : Type} : List (String × β) → String → β → (β → β) → List (String × β)
  | [], k, d, f => [(k, f d)]
  | p :: ps, k, d, f =>
    if p.1 = k then (p.1, f p.2) :: ps else p :: upsert ps k d f

/-! ## Aggregate store -/

/-- Per-run store: full request path to the ordered sequence of
response-time observations (insertion order = log order). -/
abbrev RunStore := List (String × List Nat)

/-- Per-simulation store: run id to its RunStore, first-seen order. -/
abbrev SimStore := List (String × RunStore)

/-- The aggregate store: simulation id to its SimStore. -/
abbrev GatlingData := List (String × SimStore)

/-- An ingestion-relevant event extracted from a record: the resolved
full request path and the observed response time.  `user` records are
ignored for aggregation. -/
def recordEvent : LogRecord → Option (String × Nat)
  | .user => none
  | .request e => some (full_request_path e, e.response_time_ms)

/-- Append one observation into a RunStore, in arrival order. -/
def stepRun (st : RunStore) (pt : String × Nat) : RunStore :=
  upsert st pt.1 [] (fun ts => ts ++ [pt.2])

/-- Modelled from the spec: `ingest(record)` routes a RequestEvent into
the bucket for (current simulation, current run, resolved path) and
appends its response time in arrival order; UserEvent records are
ignored. -/
def ingestRecord (d : GatlingData) (sim run : String) (r : LogRecord) : GatlingData :=
  match recordEvent r with
  | none => d
  | some pt =>
    upsert d sim [] (fun ss => upsert ss run [] (fun st => stepRun st pt))

/-- Register a discovered (simulation, run) pair in the store (a run
directory exists even when it holds no request rows). -/
def registerRun (d : GatlingData) (sim run : String) : GatlingData :=
  upsert d sim [] (fun ss => upsert ss run [] id)

/-- One discovered run: its simulation id, run id and the raw records
of its log, in file order. -/
abbrev RunInput := String × String × List LogRecord

/-- Load one run: register it, then ingest its records in order. -/
def loadEntry (d : GatlingData) (e : RunInput) : GatlingData :=
  e.2.2.foldl (fun acc r => ingestRecord acc e.1 e.2.1 r) (registerRun d e.1 e.2.1)

/-- Modelled from the spec: `load_gatling_data` consumes a sequence of
raw log records per discovered run (the file-system discovery and CSV
tokenization layers are external collaborators) and builds the
aggregate store. -/
def load_gatling_data (input : List RunInput) : GatlingData :=
  input.foldl loadEntry []

/-- Modelled from the spec: enumeration of simulations, first-seen
insertion order. -/
def get_simulations (d : GatlingData) : List String :=
  keysOf d

/-- Modelled from the spec: enumeration of the runs of a simulation,
first-seen insertion order. -/
def get_runs (d : GatlingData) (sim : String) : List String :=
  keysOf ((lookupA d sim).getD [])

/-- Lookup of the RunStore of a (simulation, run) pair. -/
def lookupRun (d : GatlingData) (sim run : String) : Option RunStore :=
  (lookupA d sim).bind (fun ss => lookupA ss run)

/-- Modelled from the spec: enumeration of the full request paths of a
run, first-seen insertion order. -/
def get_requests (d : GatlingData) (sim run : String) : List String :=
  keysOf ((lookupRun d sim run).getD [])

/-! ## Statistics engine -/

/-- Sorted copy of the observations (insertion sort; the stored
sequence is not touched). -/
def insertSorted (x : Nat) : List Nat → List Nat
  | [] => [x]
  | y :: ys => if x ≤ y then x :: y :: ys else y :: insertSorted x ys

/-- Modelled from the spec: sorting for percentile computation happens
on a copy of the observation sequence. -/
def sorted_copy : List Nat → List Nat
  | [] => []
  | x :: xs => insertSorted x (sorted_copy xs)

/-- Modelled from the spec: the fixed required percentile set. -/
def percentile_levels : List Nat := [50, 75, 95, 99, 100]

/-- Modelled from the spec: deterministic nearest-rank percentile on
the sorted copy of the observations; 0 is the documented sentinel for
an empty sequence (must not raise). -/
def percentile (obs : List Nat) (p : Nat) : Nat :=
  let s := sorted_copy obs
  match s with
  | [] => 0
  | _ => s.getD ((p * s.length + 99) / 100 - 1) 0

/-- Modelled from the spec: an aggregate exposes the stored
observations (arrival order), their count, the arithmetic mean
(0 is the documented sentinel for an empty sequence) and the fixed
percentiles. -/
structure RequestAggregate where
  response_times : List Nat
  count : Nat
  mean : Rat
  percentiles : List (Nat × Nat)
deriving DecidableEq, Repr

/-- Derive the aggregate of an observation sequence. -/
def mkAggregate (obs : List Nat) : RequestAggregate :=
  { response_times := obs
    count := obs.length
    mean := mkRat obs.sum obs.length
    percentiles := percentile_levels.map (fun p => (p, percentile obs p)) }

/-- Modelled from the spec: statistics computation over an aggregate,
written state-passing style to expose its frame: it returns the fixed
percentiles (computed from the sorted copy) together with the
aggregate it read, which it does not modify. -/
def compute_percentiles (a : RequestAggregate) : List (Nat × Nat) × RequestAggregate :=
  (percentile_levels.map (fun p => (p, percentile a.response_times p)), a)

/-- Modelled from the spec: `get_request_data` returns the
RequestAggregate of a known (simulation, run, path) triple and signals
NotFoundError otherwise; it never returns a default aggregate. -/
def get_request_data (d : GatlingData) (sim run path : String) :
    Except String RequestAggregate :=
  match lookupRun d sim run with
  | none => .error "NotFoundError"
  | some st =>
    match lookupA st path with
    | none => .error "NotFoundError"
    | some obs => .ok (mkAggregate obs)

/-- View of a query result used by concrete checks: count, stored
times and mean of a successful lookup. -/
def aggView (r : Except String RequestAggregate) : Option (Nat × List Nat × Rat) :=
  match r with
  | .ok a => some (a.count, a.response_times, a.mean)
  | .error _ => none

/-! ## Trace layout planner -/

/-- Modelled from the spec: a visual series is one percentile bar or the
mean line of a request. -/
inductive SeriesKind where
  | bar (p : Nat)
  | meanLine
deriving DecidableEq, Repr

/-- Modelled from the spec: one drawable trace, recording which
(simulation, run, request) it belongs to and its series kind. -/
structure TraceSpec where
  sim : String
  run : String
  request : String
  series : SeriesKind
deriving DecidableEq, Repr

/-- A selectable request in the dropdown: (simulation, run, full
request path). -/
abbrev SelKey := String × String × String

/-- Modelled from the spec: the selection keys of a store, runs in
store order and, within a run, requests in aggregate-store enumeration
order. -/
def selection_keys (d : GatlingData) : List SelKey :=
  d.flatMap (fun s => s.2.flatMap (fun r => (keysOf r.2).map (fun q => (s.1, r.1, q))))

/-- Modelled from the spec: all series of one request, emitted
consecutively: one bar per percentile, then the mean-line series. -/
def request_traces (k : SelKey) : List TraceSpec :=
  percentile_levels.map (fun p => ⟨k.1, k.2.1, k.2.2, .bar p⟩) ++ [⟨k.1, k.2.1, k.2.2, .meanLine⟩]

/-- Modelled from the spec: the flat ordered trace list; each request
block is emitted in full before the next request begins. -/
def plot_traces (d : GatlingData) : List TraceSpec :=
  (selection_keys d).flatMap request_traces

/-- Modelled from the spec: after emitting each request block, its
inclusive (start, end) trace-index range is recorded; the counter then
advances by the block length. -/
def assignRanges : Nat → List SelKey → List (SelKey × (Nat × Nat))
  | _, [] => []
  | n, k :: ks =>
    (k, (n, n + (request_traces k).length - 1)) :: assignRanges (n + (request_traces k).length) ks

/-- Modelled from the spec: the stacked-percentiles figure is the flat
trace list together with the dropdown mapping from each selectable
request to its inclusive visibility index range. -/
def plot_percentiles_stacked (d : GatlingData) :
    List TraceSpec × List (SelKey × (Nat × Nat)) :=
  (plot_traces d, assignRanges 0 (selection_keys d))

/-- The trace indices a dropdown button turns visible: the full
inclusive range recorded for the request. -/
def visible_list (r : Nat × Nat) : List Nat :=
  List.range' r.1 (r.2 + 1 - r.1)

/-- Does a trace belong to a selection key? -/
def traceFor (t : TraceSpec) (k : SelKey) : Bool :=
  t.sim = k.1 && t.run = k.2.1 && t.request = k.2.2

/-- Positions, counted from `n`, of the traces of a list that belong to
a selection key (the enumerate-and-filter of the regression test). -/
def idxFor (k : SelKey) : Nat → List TraceSpec → List Nat
  | _, [] => []
  | n, t :: ts => if traceFor t k then n :: idxFor k (n + 1) ts else idxFor k (n + 1) ts

/-- The trace indices at which the flat list carries a series of the
given request. -/
def semantic_indices (ts : List TraceSpec) (k : SelKey) : List Nat :=
  idxFor k 0 ts

/-! ## build.py, embedded from the source -/

/-- Outcome of one external subprocess invocation, as distinguished by
`run_git_command` in build.py: a completed process with exit code 0 and
its stdout, a non-zero exit (raises CalledProcessError under
check=True), a missing binary (raises FileNotFoundError), or an
expired timeout (raises TimeoutExpired). -/
inductive SubprocResult where
  | completed (stdout : String)
  | nonzeroExit (code : Nat)
  | noBinary
  | timedOut
deriving DecidableEq, Repr

/-- The external git subprocess, as an oracle from the full argument
vector and the timeout (seconds) passed to subprocess.run to the
outcome of the invocation. -/
abbrev GitOracle := List String → Nat → SubprocResult

/-- Python str.strip on the underlying characters: drop whitespace from
both ends. -/
def pyStrip (s : String) : String :=
  ⟨((s.data.dropWhile Char.isWhitespace).reverse.dropWhile Char.isWhitespace).reverse⟩

/-- Python truthiness of an optional string: None and the empty string
are falsy. -/
def truthy : Option String → Bool
  | none => false
  | some s => s ≠ ""

/-- Python `a if a else b` over an optional string. -/
def pyOr (o : Option String) (dflt : String) : String :=
  match o with
  | none => dflt
  | some s => if s = "" then dflt else s

/-- build.py `run_git_command(args)`: runs ["git"] + args with
capture_output, check=True and timeout=1; returns the stripped stdout,
and None when the command fails, the binary is absent or the timeout
expires (the three caught exception classes). -/
def run_git_command (o : GitOracle) (args : List String) : Option String :=
  match o ("git" :: args) 1 with
  | .completed out => some (pyStrip out)
  | .nonzeroExit _ => none
  | .noBinary => none
  | .timedOut => none

/-- build.py `get_git_sha()`: the short HEAD SHA, or "unknown" when the
command yields nothing. -/
def get_git_sha (o : GitOracle) : String :=
  pyOr (run_git_command o ["rev-parse", "--short", "HEAD"]) "unknown"

/-- build.py `is_working_tree_dirty()`: truthiness of
`git status --porcelain`. -/
def is_working_tree_dirty (o : GitOracle) : Bool :=
  truthy (run_git_command o ["status", "--porcelain"])

/-- Python `s.startswith("v")` on the underlying characters. -/
def startsWithV (s : String) : Bool :=
  match s.data with
  | [] => false
  | c :: _ => c = 'v'

/-- Python `tag[1:] if tag.startswith("v") else tag`. -/
def stripTag (tag : String) : String :=
  if startsWithV tag then tag.drop 1 else tag

/-- build.py `get_version_from_git()`, translated clause by clause:
no (or empty) tag gives "0.0.0+sha" at once; otherwise a leading "v"
is stripped, "+sha" is appended when HEAD is not on the tag, and a
dirty working tree appends ".dirty" (with "+sha" first when the
version does not already contain a plus character). -/
def get_version_from_git (o : GitOracle) : String :=
  match run_git_command o ["describe", "--tags", "--abbrev=0"] with
  | none => "0.0.0" ++ "+" ++ get_git_sha o
  | some tag =>
    if tag = "" then "0.0.0" ++ "+" ++ get_git_sha o
    else
      let version := stripTag tag
      let current_sha := run_git_command o ["rev-parse", "HEAD"]
      let tag_sha := run_git_command o ["rev-parse", tag ++ "^{}"]
      let sha := get_git_sha o
      let version := if current_sha ≠ tag_sha then version ++ "+" ++ sha else version
      if is_working_tree_dirty o then
        (if version.data.contains '+' then version ++ ".dirty"
         else version ++ "+" ++ sha ++ ".dirty")
      else version

/-! ## Characterization helpers (spec wording)

These definitions restate, in the words of the specification, what
loading should produce: first-seen enumeration order and arrival-order
observation lists.  The theorems below compare the store built by
`load_gatling_data` against them. -/

/-- One step of first-seen deduplication: keep the accumulator when the
element was already seen, append it otherwise. -/
def seenStep {α : Type} [DecidableEq α] (acc : List α) (x : α) : List α :=
  if x ∈ acc then acc else acc ++ [x]

/-- First-seen order of a sequence: its elements, deduplicated, each at
the position of its first occurrence. -/
def firstSeen {α : Type} [DecidableEq α] (l : List α) : List α :=
  l.foldl seenStep []

/-- The (simulation, run) pair of every discovered run input. -/
def entryKeys (input : List RunInput) : List (String × String) :=
  input.map (fun e => (e.1, e.2.1))

/-- The (full request path, response time) stream that a given
(simulation, run) receives from the input, in log order. -/
def run_events (input : List RunInput) (sim run : String) : List (String × Nat) :=
  input.flatMap (fun e =>
    if e.1 = sim ∧ e.2.1 = run then e.2.2.filterMap recordEvent else [])

/-- The run ids announced for one simulation by the input, in
discovery order. -/
def runsOf (input : List RunInput) (sim : String) : List String :=
  (input.filter (fun e => e.1 = sim)).map (fun e => e.2.1)

/-- A RunStore built by folding an event stream. -/
def buildRun (evs : List (String × Nat)) : RunStore :=
  evs.foldl stepRun []

/-- The response times of one path in an event stream, in stream
(arrival) order. -/
def timesFor (evs : List (String × Nat)) (p : String) : List Nat :=
  evs.filterMap (fun e => if e.1 = p then some e.2 else none)

/-! ## Character-level string helpers

`Substring`-based functions of core `String` do not reduce inside the
kernel, so substring and suffix tests are stated on the underlying
character lists. -/

/-- Character-level join with the bar delimiter (mirror of `joinPath`). -/
def charJoin : List (List Char) → List Char
  | [] => []
  | [s] => s
  | s :: t :: rest => s ++ '|' :: charJoin (t :: rest)

/-- Is the first character list a prefix of the second? -/
def listPrefixOf : List Char → List Char → Bool
  | [], _ => true
  | _ :: _, [] => false
  | a :: as, b :: bs => a == b && listPrefixOf as bs

/-- Does the second character list contain the first as a contiguous
segment? -/
def listSegOf (needle : List Char) : List Char → Bool
  | [] => listPrefixOf needle []
  | c :: rest => listPrefixOf needle (c :: rest) || listSegOf needle rest

/-- Does the second character list end with the first? -/
def listEndsWith (pat l : List Char) : Bool :=
  listPrefixOf pat.reverse l.reverse

/-! ## Concrete fixtures -/

/-- Concrete case of the spec: hierarchy A|B, name X, time 5. -/
def evA1 : RequestEvent := ⟨["A", "B"], "X", .ok, 10, 15, 5⟩

/-- Concrete case of the spec: hierarchy A|B, name X, time 4. -/
def evA2 : RequestEvent := ⟨["A", "B"], "X", .ok, 20, 24, 4⟩

/-- Concrete case of the spec: hierarchy C|D|E, name X, time 3. -/
def evB1 : RequestEvent := ⟨["C", "D", "E"], "X", .ok, 30, 33, 3⟩

/-- Concrete case of the spec: hierarchy C|D|E, name X, time 4. -/
def evB2 : RequestEvent := ⟨["C", "D", "E"], "X", .ok, 40, 44, 4⟩

/-- A record with no group hierarchy, name L, time 10. -/
def evL1 : RequestEvent := ⟨[], "L", .ok, 50, 60, 10⟩

/-- A second record with no group hierarchy, name L, time 20. -/
def evL2 : RequestEvent := ⟨[], "L", .ok, 70, 90, 20⟩

/-- One run holding the concrete case of the spec plus two records with
an absent hierarchy and a `user` lifecycle record. -/
def c1_input : List RunInput :=
  [("S", "R", [.user, .request evA1, .request evA2, .request evB1, .request evB2,
               .request evL1, .request evL2])]

/-- A git oracle: tag v1.2.3, HEAD exactly on the tag, clean tree. -/
def gitEnvClean : GitOracle := fun argv _t =>
  if argv = ["git", "describe", "--tags", "--abbrev=0"] then .completed "v1.2.3"
  else if argv = ["git", "rev-parse", "HEAD"] then .completed "aaaa1111"
  else if argv = ["git", "rev-parse", "v1.2.3^{}"] then .completed "aaaa1111"
  else if argv = ["git", "rev-parse", "--short", "HEAD"] then .completed "abcd"
  else if argv = ["git", "status", "--porcelain"] then .completed ""
  else .timedOut

/-- A git oracle: no tag reachable (describe times out), dirty tree. -/
def gitEnvNoTagDirty : GitOracle := fun argv _t =>
  if argv = ["git", "describe", "--tags", "--abbrev=0"] then .timedOut
  else if argv = ["git", "rev-parse", "HEAD"] then .completed "aaaa1111"
  else if argv = ["git", "rev-parse", "--short", "HEAD"] then .completed "abcd"
  else if argv = ["git", "status", "--porcelain"] then .completed " M build.py"
  else .nonzeroExit 128

/-- A git oracle: tag v1+x (the tag text itself holds a plus), HEAD
exactly on the tag, dirty tree. -/
def gitEnvPlusTagDirty : GitOracle := fun argv _t =>
  if argv = ["git", "describe", "--tags", "--abbrev=0"] then .completed "v1+x"
  else if argv = ["git", "rev-parse", "HEAD"] then .completed "aaaa1111"
  else if argv = ["git", "rev-parse", "v1+x^{}"] then .completed "aaaa1111"
  else if argv = ["git", "rev-parse", "--short", "HEAD"] then .completed "abcd"
  else if argv = ["git", "status", "--porcelain"] then .completed " M build.py"
  else .noBinary

/-- A git oracle: tag v1.2.3, HEAD past the tag, dirty tree. -/
def gitEnvTagDirty : GitOracle := fun argv _t =>
  if argv = ["git", "describe", "--tags", "--abbrev=0"] then .completed "v1.2.3"
  else if argv = ["git", "rev-parse", "HEAD"] then .completed "bbbb2222"
  else if argv = ["git", "rev-parse", "v1.2.3^{}"] then .completed "aaaa1111"
  else if argv = ["git", "rev-parse", "--short", "HEAD"] then .completed "bbbb"
  else if argv = ["git", "status", "--porcelain"] then .completed " M build.py"
  else .timedOut

/-! ## Lemmas: association lists -/

theorem keysOf_cons {β : Type} (p : String × β) (ps : List (String × β)) :
    keysOf (p :: ps) = p.1 :: keysOf ps := rfl

theorem keysOf_upsert {β : Type} (xs : List (String × β)) (k : String) (d : β) (f : β → β) :
    keysOf (upsert xs k d f) = if k ∈ keysOf xs then keysOf xs else keysOf xs ++ [k] := by
  induction xs with
  | nil => simp [upsert, keysOf]
  | cons p ps ih =>
    by_cases hp : p.1 = k
    · subst hp; simp [upsert, keysOf]
    · rw [upsert, if_neg hp, keysOf_cons, ih, keysOf_cons]
      by_cases hm : k ∈ keysOf ps
      · rw [if_pos hm, if_pos (List.mem_cons_of_mem _ hm)]
      · have hnotc : ¬ k ∈ p.1 :: keysOf ps := by
          intro h
          rcases List.mem_cons.mp h with h1 | h2
          · exact hp h1.symm
          · exact hm h2
        rw [if_neg hm, if_neg hnotc]
        rfl

theorem lookupA_upsert_self {β : Type} (xs : List (String × β)) (k : String) (d : β) (f : β → β) :
    lookupA (upsert xs k d f) k = some (f ((lookupA xs k).getD d)) := by
  induction xs with
  | nil => simp [upsert, lookupA]
  | cons p ps ih =>
    by_cases hp : p.1 = k
    · simp [upsert, hp, lookupA]
    · simp [upsert, hp, lookupA, ih]

theorem lookupA_upsert_ne {β : Type} (xs : List (String × β)) (k : String) (d : β) (f : β → β)
    (k' : String) (h : k' ≠ k) :
    lookupA (upsert xs k d f) k' = lookupA xs k' := by
  induction xs with
  | nil => simp [upsert, lookupA, Ne.symm h]
  | cons p ps ih =>
    by_cases hp : p.1 = k
    · simp [upsert, hp, lookupA, Ne.symm h]
    · simp [upsert, hp, lookupA, ih]

theorem lookupA_eq_none_iff {β : Type} (xs : List (String × β)) (k : String) :
    lookupA xs k = none ↔ k ∉ keysOf xs := by
  induction xs with
  | nil => simp [lookupA, keysOf]
  | cons p ps ih =>
    by_cases hp : p.1 = k
    · simp [lookupA, hp, keysOf]
    · simp [lookupA, hp, keysOf, ih, Ne.symm hp]

theorem lookupA_of_mem_nodup {β : Type} (xs : List (String × β)) (k : String) (v : β)
    (hnd : (keysOf xs).Nodup) (hm : (k, v) ∈ xs) :
    lookupA xs k = some v := by
  induction xs with
  | nil => cases hm
  | cons p ps ih =>
    rcases List.mem_cons.mp hm with h1 | h2
    · rw [← h1]
      simp [lookupA]
    · have hknd : k ∈ keysOf ps := List.mem_map_of_mem Prod.fst h2
      have hp : p.1 ≠ k := by
        intro he
        exact (List.nodup_cons.mp hnd).1 (he ▸ hknd)
      simp [lookupA, hp]
      exact ih (List.nodup_cons.mp hnd).2 h2

theorem mem_keysOf_upsert_self {β : Type} (xs : List (String × β)) (k : String) (d : β)
    (f : β → β) : k ∈ keysOf (upsert xs k d f) := by
  rw [keysOf_upsert]
  by_cases hm : k ∈ keysOf xs
  · rw [if_pos hm]; exact hm
  · rw [if_neg hm]; exact List.mem_append_right _ (List.mem_singleton.mpr rfl)

theorem mem_of_lookupA_some {β : Type} (xs : List (String × β)) (k : String) (v : β)
    (h : lookupA xs k = some v) : k ∈ keysOf xs := by
  by_contra hm
  rw [(lookupA_eq_none_iff xs k).mpr hm] at h
  cases h

/-! ## Claim C5 -/

/-- C5: for every RequestAggregate, count equals the length of its
observation sequence and mean equals the sum of observations divided by
count; for observations [108] count is 1 and mean is 108.0, and for
observations [23, 14] the mean is 18.5 (the rational model is exact, so
the tolerance of one hundredth is met with equality). -/
theorem C5_aggregate_statistics :
    (∀ obs : List Nat,
      (mkAggregate obs).count = obs.length ∧
      (mkAggregate obs).response_times = obs ∧
      (obs ≠ [] → (mkAggregate obs).mean = (obs.sum : Rat) / (obs.length : Rat)))
    ∧ (mkAggregate [108]).count = 1
    ∧ (mkAggregate [108]).mean = 108
    ∧ (mkAggregate [23, 14]).count = 2
    ∧ (mkAggregate [23, 14]).mean = 18.5 := by
  refine ⟨fun obs => ⟨rfl, rfl, fun _ => ?_⟩, by decide, by decide, by decide, ?_⟩
  · show mkRat obs.sum obs.length = _
    have hc : ((obs.sum : Int) : Rat) = (obs.sum : Rat) := Int.cast_natCast obs.sum
    rw [Rat.mkRat_eq_div, hc]
  · have h : (mkAggregate [23, 14]).mean = mkRat 37 2 := by decide
    rw [h, Rat.mkRat_eq_div]
    norm_num

/-- Witness for C5: the mean clause applied at the concrete
observation list [23, 14]. -/
theorem C5_aggregate_statistics_witness :
    (mkAggregate [23, 14]).mean = (([23, 14] : List Nat).sum : Rat) / (([23, 14] : List Nat).length : Rat) :=
  (C5_aggregate_statistics.1 [23, 14]).2.2 (by decide)

/-! ## Claim C8 -/

/-- C8: a (simulation, run, path) triple that the aggregate store does
not hold makes `get_request_data` signal NotFoundError, and a
successful answer always comes from a stored triple, so an unknown
triple never yields a default or empty aggregate. -/
theorem C8_unknown_triple_not_found (d : GatlingData) (sim run path : String) :
    (sim ∉ get_simulations d ∨ run ∉ get_runs d sim ∨ path ∉ get_requests d sim run →
      get_request_data d sim run path = .error "NotFoundError")
    ∧ (∀ a, get_request_data d sim run path = .ok a →
      sim ∈ get_simulations d ∧ run ∈ get_runs d sim ∧ path ∈ get_requests d sim run ∧
      ∃ obs, lookupA ((lookupRun d sim run).getD []) path = some obs ∧ a = mkAggregate obs) := by
  cases hS : lookupA d sim with
  | none =>
    constructor
    · intro _
      simp [get_request_data, lookupRun, hS]
    · intro a ha
      simp [get_request_data, lookupRun, hS] at ha
  | some ss =>
    cases hR : lookupA ss run with
    | none =>
      constructor
      · intro _
        simp [get_request_data, lookupRun, hS, hR]
      · intro a ha
        simp [get_request_data, lookupRun, hS, hR] at ha
    | some st =>
      cases hP : lookupA st path with
      | none =>
        constructor
        · intro _
          simp [get_request_data, lookupRun, hS, hR, hP]
        · intro a ha
          simp [get_request_data, lookupRun, hS, hR, hP] at ha
      | some obs =>
        have hsim : sim ∈ get_simulations d := mem_of_lookupA_some d sim ss hS
        have hrun : run ∈ get_runs d sim := by
          rw [get_runs, hS]
          exact mem_of_lookupA_some ss run st hR
        have hpath : path ∈ get_requests d sim run := by
          simp [get_requests, lookupRun, hS, hR]
          exact mem_of_lookupA_some st path obs hP
        constructor
        · intro h
          rcases h with h | h | h <;> exact absurd ‹_› h
        · intro a ha
          simp [get_request_data, lookupRun, hS, hR, hP] at ha
          exact ⟨hsim, hrun, hpath, obs, by simp [lookupRun, hS, hR, hP], ha.symm⟩

/-- Witness for C8: the loaded concrete store holds no triple
(S, R, X) (the bare leaf name X is not a stored full path), so the
query signals NotFoundError. -/
theorem C8_unknown_triple_not_found_witness :
    get_request_data (load_gatling_data c1_input) "S" "R" "X" = .error "NotFoundError" :=
  (C8_unknown_triple_not_found (load_gatling_data c1_input) "S" "R" "X").1
    (Or.inr (Or.inr (by decide)))

/-! ## Lemmas: character lists -/

theorem listPrefixOf_append_self (n rest : List Char) :
    listPrefixOf n (n ++ rest) = true := by
  induction n with
  | nil => rfl
  | cons a as ih => simp [listPrefixOf, ih]

theorem listSegOf_of_listPrefixOf (n l : List Char) (h : listPrefixOf n l = true) :
    listSegOf n l = true := by
  cases l with
  | nil => exact h
  | cons c rest => simp [listSegOf, h]

theorem listSegOf_append_mid (a n b : List Char) :
    listSegOf n (a ++ n ++ b) = true := by
  induction a with
  | nil =>
    simp only [List.nil_append]
    exact listSegOf_of_listPrefixOf n (n ++ b) (listPrefixOf_append_self n b)
  | cons c cs ih =>
    simp only [List.cons_append]
    rw [List.append_assoc] at ih
    simp [listSegOf, ih]

theorem listEndsWith_append (s p : String) :
    listEndsWith p.data (s ++ p).data = true := by
  rw [listEndsWith, String.data_append, List.reverse_append]
  exact listPrefixOf_append_self p.data.reverse s.data.reverse

/-! ## Claim C9 -/

/-- C9: every external git invocation of build.py goes through
run_git_command, whose definition consults the subprocess with a
timeout of one second; it returns the stripped stdout of a completed
command and None when the command exits non-zero, the binary is absent
or the timeout expires (the three exception classes it catches), so no
git failure propagates out of it; get_git_sha and is_working_tree_dirty
factor through it. -/
theorem C9_run_git_command_never_raises (o : GitOracle) (args : List String) :
    (∀ out, o ("git" :: args) 1 = .completed out →
      run_git_command o args = some (pyStrip out))
    ∧ (∀ code, o ("git" :: args) 1 = .nonzeroExit code → run_git_command o args = none)
    ∧ (o ("git" :: args) 1 = .noBinary → run_git_command o args = none)
    ∧ (o ("git" :: args) 1 = .timedOut → run_git_command o args = none)
    ∧ get_git_sha o = pyOr (run_git_command o ["rev-parse", "--short", "HEAD"]) "unknown"
    ∧ is_working_tree_dirty o = truthy (run_git_command o ["status", "--porcelain"]) := by
  refine ⟨fun out h => ?_, fun code h => ?_, fun h => ?_, fun h => ?_, rfl, rfl⟩ <;>
    simp [run_git_command, h]

/-- Witness for C9: a completed status command yields its stripped
stdout, and a timed-out describe command yields None. -/
theorem C9_run_git_command_never_raises_witness :
    run_git_command gitEnvClean ["status", "--porcelain"] = some (pyStrip "")
    ∧ run_git_command gitEnvNoTagDirty ["describe", "--tags", "--abbrev=0"] = none :=
  ⟨(C9_run_git_command_never_raises gitEnvClean ["status", "--porcelain"]).1 "" (by decide),
   (C9_run_git_command_never_raises gitEnvNoTagDirty
     ["describe", "--tags", "--abbrev=0"]).2.2.2.1 (by decide)⟩

/-! ## Claim C10 -/

theorem contains_plus_mid (a b : List Char) : (a ++ '+' :: b).contains '+' = true := by
  induction a with
  | nil => simp [List.contains_cons]
  | cons c cs ih => simp [List.contains_cons, ih]

theorem listSegOf_string_mid (a n b : String) :
    listSegOf n.data (a ++ n ++ b).data = true := by
  rw [String.data_append, String.data_append]
  exact listSegOf_append_mid a.data n.data b.data

/-- Counterexample for C10 as stated: with no tag and a dirty tree the
code returns before the dirty check, so the version does not end in
".dirty"; and with the tag v1+x (a plus inside the tag text), HEAD on
the tag and a dirty tree, the version "1+x.dirty" ends in ".dirty" but
holds no "+<short-sha>" component (the short SHA is "abcd"). -/
theorem C10_version_counterexample :
    (is_working_tree_dirty gitEnvNoTagDirty = true
      ∧ get_version_from_git gitEnvNoTagDirty = "0.0.0+abcd"
      ∧ listEndsWith (".dirty").data ("0.0.0+abcd").data = false)
    ∧ (is_working_tree_dirty gitEnvPlusTagDirty = true
      ∧ get_git_sha gitEnvPlusTagDirty = "abcd"
      ∧ get_version_from_git gitEnvPlusTagDirty = "1+x.dirty"
      ∧ listSegOf ("+" ++ "abcd").data ("1+x.dirty").data = false) :=
  ⟨⟨by decide, by decide, by decide⟩, by decide, by decide, by decide, by decide⟩

/-- C10 (amended): viewed as a function of the git query results,
get_version_from_git returns "0.0.0+<short-sha>" whenever no (or an
empty) tag exists, even when the tree is dirty; with a tag it strips a
leading "v" and appends "+<short-sha>" exactly when HEAD is not the
tag commit; and when the tree is dirty and a tag exists the version
ends in ".dirty" and holds a "+<short-sha>" component whenever the
stripped tag holds no plus character of its own. -/
theorem C10_version_from_git (o : GitOracle) :
    (truthy (run_git_command o ["describe", "--tags", "--abbrev=0"]) = false →
      get_version_from_git o = "0.0.0" ++ "+" ++ get_git_sha o)
    ∧ (∀ tag, run_git_command o ["describe", "--tags", "--abbrev=0"] = some tag → tag ≠ "" →
        (is_working_tree_dirty o = false →
          get_version_from_git o =
            if run_git_command o ["rev-parse", "HEAD"] ≠ run_git_command o ["rev-parse", tag ++ "^{}"]
            then stripTag tag ++ "+" ++ get_git_sha o
            else stripTag tag)
        ∧ (is_working_tree_dirty o = true →
            listEndsWith (".dirty").data (get_version_from_git o).data = true
            ∧ ((stripTag tag).data.contains '+' = false →
                listSegOf ("+" ++ get_git_sha o).data (get_version_from_git o).data = true))) := by
  constructor
  · intro htr
    cases hT : run_git_command o ["describe", "--tags", "--abbrev=0"] with
    | none => simp [get_version_from_git, hT]
    | some t =>
      rw [hT] at htr
      have ht : t = "" := by simpa [truthy] using htr
      simp [get_version_from_git, hT, ht]
  · intro tag hT hne
    have hv : get_version_from_git o =
        (if is_working_tree_dirty o then
          (if (if run_git_command o ["rev-parse", "HEAD"] ≠ run_git_command o ["rev-parse", tag ++ "^{}"]
               then stripTag tag ++ "+" ++ get_git_sha o else stripTag tag).data.contains '+' then
            (if run_git_command o ["rev-parse", "HEAD"] ≠ run_git_command o ["rev-parse", tag ++ "^{}"]
             then stripTag tag ++ "+" ++ get_git_sha o else stripTag tag) ++ ".dirty"
          else
            (if run_git_command o ["rev-parse", "HEAD"] ≠ run_git_command o ["rev-parse", tag ++ "^{}"]
             then stripTag tag ++ "+" ++ get_git_sha o else stripTag tag) ++ "+" ++ get_git_sha o ++ ".dirty")
        else
          (if run_git_command o ["rev-parse", "HEAD"] ≠ run_git_command o ["rev-parse", tag ++ "^{}"]
           then stripTag tag ++ "+" ++ get_git_sha o else stripTag tag)) := by
      rw [get_version_from_git, hT]
      simp only [hne, if_false]
    constructor
    · intro hD
      rw [hv, hD]
      simp only [Bool.false_eq_true, if_false]
    · intro hD
      rw [hv, hD]
      simp only [if_true]
      by_cases hC : run_git_command o ["rev-parse", "HEAD"] ≠ run_git_command o ["rev-parse", tag ++ "^{}"]
      · rw [if_pos hC]
        have hplus : (stripTag tag ++ "+" ++ get_git_sha o).data.contains '+' = true := by
          rw [String.data_append, String.data_append]
          have : ("+" : String).data = ['+'] := rfl
          rw [this, List.append_assoc]
          exact contains_plus_mid (stripTag tag).data (get_git_sha o).data
        rw [if_pos hplus]
        refine ⟨listEndsWith_append _ _, fun _ => ?_⟩
        have he : (stripTag tag ++ "+" ++ get_git_sha o) ++ ".dirty"
            = stripTag tag ++ ("+" ++ get_git_sha o) ++ ".dirty" := by
          rw [String.append_assoc (stripTag tag) "+" (get_git_sha o)]
        rw [he]
        exact listSegOf_string_mid (stripTag tag) ("+" ++ get_git_sha o) ".dirty"
      · rw [if_neg hC]
        by_cases hP : (stripTag tag).data.contains '+'
        · rw [if_pos hP]
          refine ⟨listEndsWith_append _ _, fun hnp => ?_⟩
          rw [hnp] at hP
          cases hP
        · rw [if_neg hP]
          refine ⟨?_, fun _ => ?_⟩
          · have he : (stripTag tag ++ "+" ++ get_git_sha o) ++ ".dirty"
                = (stripTag tag ++ "+" ++ get_git_sha o) ++ ".dirty" := rfl
            exact listEndsWith_append (stripTag tag ++ "+" ++ get_git_sha o) ".dirty"
          · have he : (stripTag tag ++ "+" ++ get_git_sha o) ++ ".dirty"
                = stripTag tag ++ ("+" ++ get_git_sha o) ++ ".dirty" := by
              rw [String.append_assoc (stripTag tag) "+" (get_git_sha o)]
            rw [he]
            exact listSegOf_string_mid (stripTag tag) ("+" ++ get_git_sha o) ".dirty"

/-- Witness for C10 (amended): on the tag and clean the version is the
stripped tag; past the tag and dirty it ends in ".dirty" and holds the
"+<short-sha>" component. -/
theorem C10_version_from_git_witness :
    get_version_from_git gitEnvClean = stripTag "v1.2.3"
    ∧ listEndsWith (".dirty").data (get_version_from_git gitEnvTagDirty).data = true
    ∧ listSegOf ("+" ++ get_git_sha gitEnvTagDirty).data (get_version_from_git gitEnvTagDirty).data = true := by
  have h1 := ((C10_version_from_git gitEnvClean).2 "v1.2.3" (by decide) (by decide)).1 (by decide)
  have h2 := ((C10_version_from_git gitEnvTagDirty).2 "v1.2.3" (by decide) (by decide)).2 (by decide)
  exact ⟨h1.trans (if_neg (by decide)), h2.1, h2.2 (by decide)⟩

/-! ## Claim C1: join injectivity on delimiter-free segments -/

theorem data_joinPath (l : List String) :
    (joinPath l).data = charJoin (l.map String.data) := by
  induction l with
  | nil => rfl
  | cons s rest ih =>
    cases rest with
    | nil => rfl
    | cons t ts =>
      show (s ++ "|" ++ joinPath (t :: ts)).data = _
      rw [String.data_append, String.data_append, ih]
      show s.data ++ ['|'] ++ _ = charJoin (s.data :: t.data :: ts.map String.data)
      rw [charJoin]
      simp [List.append_assoc]

theorem bar_free_cancel (a : List Char) : ∀ (c rest1 rest2 : List Char), '|' ∉ a → '|' ∉ c →
    a ++ '|' :: rest1 = c ++ '|' :: rest2 → a = c ∧ rest1 = rest2 := by
  induction a with
  | nil =>
    intro c rest1 rest2 _ hc h
    cases c with
    | nil => simpa using h
    | cons x xs =>
      rw [List.nil_append, List.cons_append] at h
      have hx : '|' = x := (List.cons_eq_cons.mp h).1
      exact absurd (hx ▸ List.mem_cons_self x xs) hc
  | cons x xs ih =>
    intro c rest1 rest2 ha hc h
    cases c with
    | nil =>
      rw [List.nil_append, List.cons_append] at h
      have hx : x = '|' := (List.cons_eq_cons.mp h).1
      exact absurd (hx ▸ List.mem_cons_self x xs) (hx ▸ ha)
    | cons y ys =>
      rw [List.cons_append, List.cons_append] at h
      obtain ⟨hxy, hrest⟩ := List.cons_eq_cons.mp h
      have hxs : '|' ∉ xs := fun hm => ha (List.mem_cons_of_mem x hm)
      have hys : '|' ∉ ys := fun hm => hc (List.mem_cons_of_mem y hm)
      obtain ⟨hac, hr⟩ := ih ys rest1 rest2 hxs hys hrest
      exact ⟨by rw [hxy, hac], hr⟩

theorem mem_charJoin_bar (c : List Char) (cs : List (List Char)) :
    '|' ∈ charJoin (c :: cs) ∨ cs = [] := by
  cases cs with
  | nil => exact Or.inr rfl
  | cons d ds =>
    left
    rw [charJoin]
    exact List.mem_append_right c (List.mem_cons_self '|' _)

theorem charJoin_inj (l1 : List (List Char)) : ∀ (l2 : List (List Char)),
    l1 ≠ [] → l2 ≠ [] → (∀ x ∈ l1, '|' ∉ x) → (∀ x ∈ l2, '|' ∉ x) →
    charJoin l1 = charJoin l2 → l1 = l2 := by
  induction l1 with
  | nil => intro l2 h; exact absurd rfl h
  | cons a as ih =>
    intro l2 _ hl2 hf1 hf2 h
    cases l2 with
    | nil => exact absurd rfl hl2
    | cons c cs =>
      cases as with
      | nil =>
        cases cs with
        | nil =>
          have : a = c := h
          rw [this]
        | cons d ds =>
          rw [charJoin] at h
          have hmem : '|' ∈ charJoin [a] := by
            rw [h]
            exact List.mem_append_right c (List.mem_cons_self '|' _)
          exact absurd hmem (hf1 a (List.mem_cons_self a []))
      | cons b bs =>
        cases cs with
        | nil =>
          rw [charJoin] at h
          have hmem : '|' ∈ charJoin [c] := by
            rw [← h]
            exact List.mem_append_right a (List.mem_cons_self '|' _)
          exact absurd hmem (hf2 c (List.mem_cons_self c []))
        | cons d ds =>
          rw [charJoin, charJoin] at h
          obtain ⟨hac, hrest⟩ := bar_free_cancel a c (charJoin (b :: bs)) (charJoin (d :: ds))
            (hf1 a (List.mem_cons_self a _)) (hf2 c (List.mem_cons_self c _)) h
          have htail : b :: bs = d :: ds :=
            ih (d :: ds) (by simp) (by simp)
              (fun x hx => hf1 x (List.mem_cons_of_mem a hx))
              (fun x hx => hf2 x (List.mem_cons_of_mem c hx)) hrest
          rw [hac, htail]

theorem joinPath_append_singleton (h : List String) (n : String) (hne : h ≠ []) :
    joinPath (h ++ [n]) = joinPath h ++ "|" ++ n := by
  induction h with
  | nil => exact absurd rfl hne
  | cons s rest ih =>
    cases rest with
    | nil => rfl
    | cons t ts =>
      show joinPath (s :: ((t :: ts) ++ [n])) = _
      rw [List.cons_append]
      show s ++ "|" ++ joinPath ((t :: ts) ++ [n]) = (s ++ "|" ++ joinPath (t :: ts)) ++ "|" ++ n
      rw [ih (by simp)]
      simp [String.append_assoc]

theorem full_request_path_ne (e1 e2 : RequestEvent)
    (hn : e1.request_name = e2.request_name)
    (hh : e1.group_hierarchy ≠ e2.group_hierarchy)
    (hf1 : ∀ s ∈ e1.group_hierarchy, '|' ∉ s.data)
    (hf2 : ∀ s ∈ e2.group_hierarchy, '|' ∉ s.data) :
    full_request_path e1 ≠ full_request_path e2 := by
  intro heq
  rw [full_request_path, full_request_path, ← hn] at heq
  cases h1 : e1.group_hierarchy with
  | nil =>
    cases h2 : e2.group_hierarchy with
    | nil => exact hh (h1.trans h2.symm)
    | cons c cs =>
      rw [h1, h2] at heq
      rw [List.nil_append, joinPath_append_singleton (c :: cs) _ (by simp)] at heq
      have hone : joinPath [e1.request_name] = e1.request_name := rfl
      rw [hone] at heq
      have hd := congrArg String.data heq
      rw [String.data_append, String.data_append] at hd
      have hlen := congrArg List.length hd
      rw [List.length_append, List.length_append] at hlen
      have hbar : ("|" : String).data.length = 1 := rfl
      rw [hbar] at hlen
      omega
  | cons a as =>
    cases h2 : e2.group_hierarchy with
    | nil =>
      rw [h1, h2] at heq
      rw [List.nil_append, joinPath_append_singleton (a :: as) _ (by simp)] at heq
      have hone : joinPath [e1.request_name] = e1.request_name := rfl
      rw [hone] at heq
      have hd := congrArg String.data heq
      rw [String.data_append, String.data_append] at hd
      have hlen := congrArg List.length hd
      rw [List.length_append, List.length_append] at hlen
      have hbar : ("|" : String).data.length = 1 := rfl
      rw [hbar] at hlen
      omega
    | cons c cs =>
      rw [h1, h2] at heq
      rw [joinPath_append_singleton (a :: as) _ (by simp),
        joinPath_append_singleton (c :: cs) _ (by simp)] at heq
      have hd := congrArg String.data heq
      rw [String.data_append, String.data_append, String.data_append, String.data_append] at hd
      rw [List.append_assoc, List.append_assoc] at hd
      have hj : (joinPath (a :: as)).data = (joinPath (c :: cs)).data :=
        List.append_cancel_right hd
      rw [data_joinPath, data_joinPath] at hj
      have hmapeq : (a :: as).map String.data = (c :: cs).map String.data := by
        refine charJoin_inj _ _ (by simp) (by simp) ?_ ?_ hj
        · intro x hx
          obtain ⟨s, hs, hsx⟩ := List.mem_map.mp hx
          exact hsx ▸ hf1 s (h1 ▸ hs)
        · intro x hx
          obtain ⟨s, hs, hsx⟩ := List.mem_map.mp hx
          exact hsx ▸ hf2 s (h2 ▸ hs)
      have hinj : Function.Injective (List.map String.data) :=
        List.map_injective_iff.mpr (fun x y hxy => String.ext hxy)
      exact hh (h1 ▸ h2 ▸ hinj hmapeq)

/-- C1: hierarchy-aware grouping. Two RequestEvents with the same name
but hierarchies that differ in any segment (segments holding no
delimiter character) resolve to distinct full request paths; two events
with the same name and an empty (missing) hierarchy resolve to the same
path and merge; and on the concrete case of the spec the loaded store
holds exactly the separate aggregates A|B|X (count 2, mean 4.5) and
C|D|E|X (count 2, mean 3.5), and one merged aggregate L (count 2) for
the two hierarchy-less records, never a merged 4-observation
aggregate. -/
theorem C1_hierarchy_disambiguation :
    (∀ e1 e2 : RequestEvent, e1.request_name = e2.request_name →
      e1.group_hierarchy ≠ e2.group_hierarchy →
      (∀ s ∈ e1.group_hierarchy, '|' ∉ s.data) →
      (∀ s ∈ e2.group_hierarchy, '|' ∉ s.data) →
      full_request_path e1 ≠ full_request_path e2)
    ∧ (∀ e1 e2 : RequestEvent, e1.request_name = e2.request_name →
      e1.group_hierarchy = [] → e2.group_hierarchy = [] →
      full_request_path e1 = full_request_path e2)
    ∧ get_requests (load_gatling_data c1_input) "S" "R" = ["A|B|X", "C|D|E|X", "L"]
    ∧ aggView (get_request_data (load_gatling_data c1_input) "S" "R" "A|B|X")
        = some (2, [5, 4], mkRat 9 2)
    ∧ aggView (get_request_data (load_gatling_data c1_input) "S" "R" "C|D|E|X")
        = some (2, [3, 4], mkRat 7 2)
    ∧ aggView (get_request_data (load_gatling_data c1_input) "S" "R" "L")
        = some (2, [10, 20], mkRat 15 1) := by
  refine ⟨full_request_path_ne, ?_, by decide, by decide, by decide, by decide⟩
  intro e1 e2 hn h1 h2
  rw [full_request_path, full_request_path, h1, h2, hn]

/-- Witness for C1: the concrete events with hierarchies A|B and C|D|E
and the shared leaf name X resolve to distinct paths, and the two
hierarchy-less L events resolve to one shared path. -/
theorem C1_hierarchy_disambiguation_witness :
    full_request_path evA1 ≠ full_request_path evB1
    ∧ full_request_path evL1 = full_request_path evL2 :=
  ⟨C1_hierarchy_disambiguation.1 evA1 evB1 (by decide) (by decide) (by decide) (by decide),
   C1_hierarchy_disambiguation.2.1 evL1 evL2 (by decide) (by decide) (by decide)⟩

/-! ## Lemmas: trace layout -/

theorem request_traces_length (k : SelKey) : (request_traces k).length = 6 := rfl

theorem traceFor_request_traces (k k' : SelKey) (t : TraceSpec) (ht : t ∈ request_traces k') :
    traceFor t k = true ↔ k' = k := by
  obtain ⟨s1, r1, q1⟩ := k
  obtain ⟨s2, r2, q2⟩ := k'
  have hfields : t.sim = s2 ∧ t.run = r2 ∧ t.request = q2 := by
    rcases List.mem_append.mp ht with hm | hm
    · obtain ⟨p, _, hp⟩ := List.mem_map.mp hm
      rw [← hp]
      exact ⟨rfl, rfl, rfl⟩
    · rw [List.mem_singleton.mp hm]
      exact ⟨rfl, rfl, rfl⟩
  obtain ⟨h1, h2, h3⟩ := hfields
  simp [traceFor, h1, h2, h3, Prod.ext_iff, and_assoc]

theorem idxFor_append (k : SelKey) (n : Nat) (xs ys : List TraceSpec) :
    idxFor k n (xs ++ ys) = idxFor k n xs ++ idxFor k (n + xs.length) ys := by
  induction xs generalizing n with
  | nil => simp [idxFor]
  | cons t ts ih =>
    rw [List.cons_append]
    by_cases h : traceFor t k = true
    · rw [idxFor, if_pos h, idxFor, if_pos h, ih, List.cons_append, List.length_cons]
      have harith : n + 1 + ts.length = n + (ts.length + 1) := by omega
      rw [harith]
    · rw [idxFor, if_neg h, idxFor, if_neg h, ih, List.length_cons]
      have harith : n + 1 + ts.length = n + (ts.length + 1) := by omega
      rw [harith]

theorem idxFor_all_match (k : SelKey) (xs : List TraceSpec)
    (h : ∀ t ∈ xs, traceFor t k = true) :
    ∀ n, idxFor k n xs = List.range' n xs.length := by
  induction xs with
  | nil => intro n; rfl
  | cons t ts ih =>
    intro n
    rw [idxFor, if_pos (h t (List.mem_cons_self t ts)),
      ih (fun u hu => h u (List.mem_cons_of_mem t hu)) (n + 1), List.length_cons]
    rfl

theorem idxFor_no_match (k : SelKey) (xs : List TraceSpec)
    (h : ∀ t ∈ xs, traceFor t k = false) :
    ∀ n, idxFor k n xs = [] := by
  induction xs with
  | nil => intro n; rfl
  | cons t ts ih =>
    intro n
    rw [idxFor, if_neg (by rw [h t (List.mem_cons_self t ts)]; simp),
      ih (fun u hu => h u (List.mem_cons_of_mem t hu)) (n + 1)]

theorem traceFor_false_of_ne (k k' : SelKey) (hne : k' ≠ k) (t : TraceSpec)
    (ht : t ∈ request_traces k') : traceFor t k = false := by
  cases hb : traceFor t k with
  | false => rfl
  | true => exact absurd ((traceFor_request_traces k k' t ht).mp hb) hne

theorem idxFor_flatMap_not_mem (k : SelKey) (ks : List SelKey) (hk : k ∉ ks) :
    ∀ n, idxFor k n (ks.flatMap request_traces) = [] := by
  induction ks with
  | nil => intro n; rfl
  | cons k0 ks ih =>
    intro n
    rw [List.flatMap_cons, idxFor_append]
    have hne : k0 ≠ k := fun he => hk (he ▸ List.mem_cons_self k0 ks)
    rw [idxFor_no_match k _ (traceFor_false_of_ne k k0 hne) n,
      ih (fun hm => hk (List.mem_cons_of_mem k0 hm)) _]
    rfl

theorem assignRanges_key_mem (ks : List SelKey) :
    ∀ (n : Nat) (k : SelKey) (r : Nat × Nat), (k, r) ∈ assignRanges n ks → k ∈ ks := by
  induction ks with
  | nil => intro n k r hm; cases hm
  | cons k0 ks ih =>
    intro n k r hm
    rcases List.mem_cons.mp hm with h1 | h2
    · have hk : k = k0 := congrArg Prod.fst h1
      exact hk ▸ List.mem_cons_self k0 ks
    · exact List.mem_cons_of_mem k0 (ih _ k r h2)

theorem assignRanges_bounds (ks : List SelKey) :
    ∀ (n : Nat) (k : SelKey) (s e : Nat), (k, (s, e)) ∈ assignRanges n ks →
      n ≤ s ∧ e = s + 5 := by
  induction ks with
  | nil => intro n k s e hm; cases hm
  | cons k0 ks ih =>
    intro n k s e hm
    have hlen : (request_traces k0).length = 6 := rfl
    rcases List.mem_cons.mp hm with h1 | h2
    · have hs : s = n := congrArg (fun p => p.2.1) h1
      have he : e = n + (request_traces k0).length - 1 := congrArg (fun p => p.2.2) h1
      rw [hlen] at he
      omega
    · rw [hlen] at h2
      obtain ⟨hle, he⟩ := ih _ k s e h2
      exact ⟨by omega, he⟩

theorem assignRanges_disjoint (ks : List SelKey) :
    ∀ (n : Nat) (k1 : SelKey) (s1 e1 : Nat) (k2 : SelKey) (s2 e2 : Nat),
      (k1, (s1, e1)) ∈ assignRanges n ks → (k2, (s2, e2)) ∈ assignRanges n ks → k1 ≠ k2 →
      ∀ i, s1 ≤ i → i ≤ e1 → ¬(s2 ≤ i ∧ i ≤ e2) := by
  induction ks with
  | nil => intro n k1 s1 e1 k2 s2 e2 hm1; cases hm1
  | cons k0 ks ih =>
    intro n k1 s1 e1 k2 s2 e2 hm1 hm2 hne i hi1 hi2
    have hlen : (request_traces k0).length = 6 := rfl
    rw [assignRanges, hlen] at hm1 hm2
    rcases List.mem_cons.mp hm1 with ha | ha <;> rcases List.mem_cons.mp hm2 with hb | hb
    · have hk1 : k1 = k0 := congrArg Prod.fst ha
      have hk2 : k2 = k0 := congrArg Prod.fst hb
      exact fun _ => hne (hk1.trans hk2.symm)
    · have hs : s1 = n := congrArg (fun p => p.2.1) ha
      have he : e1 = n + 6 - 1 := congrArg (fun p => p.2.2) ha
      obtain ⟨hle, -⟩ := assignRanges_bounds ks _ k2 s2 e2 hb
      intro hcon
      omega
    · have hs : s2 = n := congrArg (fun p => p.2.1) hb
      have he : e2 = n + 6 - 1 := congrArg (fun p => p.2.2) hb
      obtain ⟨hle, -⟩ := assignRanges_bounds ks _ k1 s1 e1 ha
      intro hcon
      omega
    · exact ih _ k1 s1 e1 k2 s2 e2 ha hb hne i hi1 hi2

theorem semantic_indices_of_range (ks : List SelKey) :
    ∀ (n : Nat) (k : SelKey) (s e : Nat), ks.Nodup →
      (k, (s, e)) ∈ assignRanges n ks →
      idxFor k n (ks.flatMap request_traces) = List.range' s (e + 1 - s) ∧ e + 1 - s = 6 := by
  induction ks with
  | nil => intro n k s e _ hm; cases hm
  | cons k0 ks ih =>
    intro n k s e hnd hm
    have hlen : (request_traces k0).length = 6 := rfl
    rw [assignRanges, hlen] at hm
    rw [List.flatMap_cons, idxFor_append, hlen]
    rcases List.mem_cons.mp hm with h1 | h2
    · have hk : k = k0 := congrArg Prod.fst h1
      have hs : s = n := congrArg (fun p => p.2.1) h1
      have he : e = n + 6 - 1 := congrArg (fun p => p.2.2) h1
      have hk0 : k ∉ ks := hk ▸ (List.nodup_cons.mp hnd).1
      have hhead : idxFor k n (request_traces k0) = List.range' n 6 := by
        rw [idxFor_all_match k _ (fun t ht => (traceFor_request_traces k k0 t ht).mpr hk.symm) n]
        rfl
      rw [hhead, idxFor_flatMap_not_mem k ks hk0 _, List.append_nil]
      have h6 : e + 1 - s = 6 := by omega
      rw [h6, hs]
      exact ⟨rfl, rfl⟩
    · have hkmem : k ∈ ks := assignRanges_key_mem ks _ k (s, e) h2
      have hne : k0 ≠ k := fun hh => (List.nodup_cons.mp hnd).1 (hh ▸ hkmem)
      rw [idxFor_no_match k _ (traceFor_false_of_ne k k0 hne) n, List.nil_append]
      exact ih _ k s e (List.nodup_cons.mp hnd).2 h2

/-! ## Claim C2 -/

/-- C2: in any layout produced by the trace layout planner, two
distinct requests of the same run have disjoint visibility index
ranges: no trace index is visible for both. -/
theorem C2_no_overlap (d : GatlingData) (k1 k2 : SelKey) (r1 r2 : Nat × Nat)
    (hm1 : (k1, r1) ∈ (plot_percentiles_stacked d).2)
    (hm2 : (k2, r2) ∈ (plot_percentiles_stacked d).2)
    (_hsim : k1.1 = k2.1) (_hrun : k1.2.1 = k2.2.1) (hreq : k1.2.2 ≠ k2.2.2) :
    ∀ i, i ∈ visible_list r1 → i ∉ visible_list r2 := by
  obtain ⟨s1, e1⟩ := r1
  obtain ⟨s2, e2⟩ := r2
  intro i h1 h2
  rw [visible_list] at h1 h2
  have hi1 := List.mem_range'_1.mp h1
  have hi2 := List.mem_range'_1.mp h2
  have hne : k1 ≠ k2 := fun he => hreq (congrArg (fun k => k.2.2) he)
  obtain ⟨-, hb1⟩ := assignRanges_bounds (selection_keys d) 0 k1 s1 e1 hm1
  obtain ⟨-, hb2⟩ := assignRanges_bounds (selection_keys d) 0 k2 s2 e2 hm2
  exact assignRanges_disjoint (selection_keys d) 0 k1 s1 e1 k2 s2 e2 hm1 hm2 hne i
    (by omega) (by omega) ⟨by omega, by omega⟩

/-- Witness for C2: in the concrete layout the ranges of A|B|X and
C|D|E|X are (0, 5) and (6, 11); index 3 is visible for the first and
therefore not for the second. -/
theorem C2_no_overlap_witness :
    (3 ∈ visible_list (0, 5)) ∧ 3 ∉ visible_list (6, 11) :=
  ⟨by decide,
   C2_no_overlap (load_gatling_data c1_input)
     ("S", "R", "A|B|X") ("S", "R", "C|D|E|X") (0, 5) (6, 11)
     (by decide) (by decide) rfl rfl (by decide) 3 (by decide)⟩

/-! ## Claim C4 -/

/-- C4: every selectable request of any layout has a visibility range
of exactly one trace per percentile bar plus one mean line; with the
fixed percentile set of five levels that is six traces. -/
theorem C4_series_count (d : GatlingData) (k : SelKey) (s e : Nat)
    (hm : (k, (s, e)) ∈ (plot_percentiles_stacked d).2) :
    (visible_list (s, e)).length = percentile_levels.length + 1
    ∧ percentile_levels.length + 1 = 6 := by
  obtain ⟨-, he⟩ := assignRanges_bounds (selection_keys d) 0 k s e hm
  refine ⟨?_, rfl⟩
  rw [visible_list, List.length_range']
  have hsix : percentile_levels.length + 1 = 6 := rfl
  rw [hsix]
  omega

/-- Witness for C4: the range of C|D|E|X in the concrete layout is
(6, 11), six traces. -/
theorem C4_series_count_witness :
    (visible_list (6, 11)).length = percentile_levels.length + 1 :=
  (C4_series_count (load_gatling_data c1_input) ("S", "R", "C|D|E|X") 6 11 (by decide)).1

/-! ## Lemmas: run store folds -/

theorem keysOf_foldl_stepRun (evs : List (String × Nat)) :
    ∀ st : RunStore, keysOf (evs.foldl stepRun st)
      = (evs.map Prod.fst).foldl seenStep (keysOf st) := by
  induction evs with
  | nil => intro st; rfl
  | cons e es ih =>
    intro st
    rw [List.foldl_cons, List.map_cons, List.foldl_cons, ih]
    congr 1
    rw [stepRun, keysOf_upsert, seenStep]

theorem keysOf_buildRun (evs : List (String × Nat)) :
    keysOf (buildRun evs) = firstSeen (evs.map Prod.fst) :=
  keysOf_foldl_stepRun evs []

theorem lookupA_foldl_stepRun (evs : List (String × Nat)) :
    ∀ (st : RunStore) (p : String),
      lookupA (evs.foldl stepRun st) p =
        match lookupA st p with
        | some ts => some (ts ++ timesFor evs p)
        | none => if p ∈ evs.map Prod.fst then some (timesFor evs p) else none := by
  induction evs with
  | nil =>
    intro st p
    cases h : lookupA st p <;> simp [timesFor, h]
  | cons e es ih =>
    intro st p
    rw [List.foldl_cons, ih]
    by_cases hp : e.1 = p
    · have hup : lookupA (stepRun st e) p = some (((lookupA st p).getD []) ++ [e.2]) := by
        rw [stepRun, ← hp]
        exact lookupA_upsert_self st e.1 [] (fun ts => ts ++ [e.2])
      have htime : timesFor (e :: es) p = e.2 :: timesFor es p := by
        rw [timesFor, List.filterMap_cons, if_pos hp]
        rfl
      rw [hup, htime]
      cases h : lookupA st p with
      | some ts => simp [h, List.append_assoc]
      | none => simp [h, hp]
    · have hup : lookupA (stepRun st e) p = lookupA st p := by
        rw [stepRun]
        exact lookupA_upsert_ne st e.1 [] _ p (fun hh => hp hh.symm)
      have htime : timesFor (e :: es) p = timesFor es p := by
        rw [timesFor, List.filterMap_cons, if_neg hp]
        rfl
      rw [hup, htime]
      cases h : lookupA st p with
      | some ts => rfl
      | none =>
        have hne : p ≠ e.1 := fun hh => hp hh.symm
        have hiff : p ∈ e.1 :: List.map Prod.fst es ↔ p ∈ List.map Prod.fst es := by
          rw [List.mem_cons]
          simp [hne]
        exact (if_congr hiff rfl rfl).symm

theorem timesFor_ne_nil (evs : List (String × Nat)) (p : String)
    (h : p ∈ evs.map Prod.fst) : timesFor evs p ≠ [] := by
  induction evs with
  | nil => cases h
  | cons e es ih =>
    by_cases hp : e.1 = p
    · simp [timesFor, List.filterMap_cons, hp]
    · rcases List.mem_cons.mp h with h1 | h1
      · exact absurd h1.symm hp
      · have htime : timesFor (e :: es) p = timesFor es p := by
          simp [timesFor, List.filterMap_cons, hp]
        rw [htime]
        exact ih h1

/-! ## Lemmas: effect of loading on the store -/

theorem lookupRun_registerRun_self (d : GatlingData) (sim run : String) :
    lookupRun (registerRun d sim run) sim run = some ((lookupRun d sim run).getD []) := by
  rw [registerRun, lookupRun, lookupA_upsert_self, Option.some_bind]
  cases hS : lookupA d sim with
  | none => simp [lookupRun, hS, lookupA_upsert_self, lookupA]
  | some ss => simp [lookupRun, hS, lookupA_upsert_self]

theorem lookupRun_registerRun_ne (d : GatlingData) (sim run sim' run' : String)
    (h : (sim', run') ≠ (sim, run)) :
    lookupRun (registerRun d sim run) sim' run' = lookupRun d sim' run' := by
  by_cases hs : sim' = sim
  · have hr : run' ≠ run := by
      intro hh
      exact h (by rw [hs, hh])
    subst hs
    rw [registerRun, lookupRun, lookupA_upsert_self, Option.some_bind,
      lookupA_upsert_ne _ _ _ _ _ hr, lookupRun]
    cases hS : lookupA d sim' with
    | none => simp [lookupA]
    | some ss => simp
  · rw [registerRun, lookupRun, lookupA_upsert_ne _ _ _ _ _ hs, lookupRun]

theorem lookupRun_ingestRecord_self (d : GatlingData) (sim run : String) (r : LogRecord) :
    lookupRun (ingestRecord d sim run r) sim run =
      match recordEvent r with
      | none => lookupRun d sim run
      | some pt => some (stepRun ((lookupRun d sim run).getD []) pt) := by
  cases hr : recordEvent r with
  | none => rw [ingestRecord, hr]
  | some pt =>
    rw [ingestRecord, hr, lookupRun, lookupA_upsert_self, Option.some_bind]
    cases hS : lookupA d sim with
    | none => simp [lookupRun, hS, lookupA_upsert_self, lookupA]
    | some ss => simp [lookupRun, hS, lookupA_upsert_self]

theorem lookupRun_ingestRecord_ne (d : GatlingData) (sim run : String) (r : LogRecord)
    (sim' run' : String) (h : (sim', run') ≠ (sim, run)) :
    lookupRun (ingestRecord d sim run r) sim' run' = lookupRun d sim' run' := by
  cases hr : recordEvent r with
  | none => rw [ingestRecord, hr]
  | some pt =>
    by_cases hs : sim' = sim
    · have hr2 : run' ≠ run := by
        intro hh
        exact h (by rw [hs, hh])
      subst hs
      rw [ingestRecord, hr, lookupRun, lookupA_upsert_self, Option.some_bind,
        lookupA_upsert_ne _ _ _ _ _ hr2, lookupRun]
      cases hS : lookupA d sim' with
      | none => simp [lookupA]
      | some ss => simp
    · rw [ingestRecord, hr, lookupRun, lookupA_upsert_ne _ _ _ _ _ hs, lookupRun]

theorem lookupRun_foldl_ingest_self (rs : List LogRecord) :
    ∀ (d : GatlingData) (sim run : String) (st : RunStore),
      lookupRun d sim run = some st →
      lookupRun (rs.foldl (fun acc r => ingestRecord acc sim run r) d) sim run =
        some ((rs.filterMap recordEvent).foldl stepRun st) := by
  induction rs with
  | nil => intro d sim run st hst; simpa using hst
  | cons r rs ih =>
    intro d sim run st hst
    rw [List.foldl_cons, List.filterMap_cons]
    cases hr : recordEvent r with
    | none =>
      have hsame : ingestRecord d sim run r = d := by rw [ingestRecord, hr]
      rw [hsame]
      exact ih d sim run st hst
    | some pt =>
      have h1 := lookupRun_ingestRecord_self d sim run r
      rw [hr, hst] at h1
      rw [List.foldl_cons]
      exact ih _ sim run (stepRun st pt) h1

theorem lookupRun_foldl_ingest_ne (rs : List LogRecord) :
    ∀ (d : GatlingData) (sim run sim' run' : String), (sim', run') ≠ (sim, run) →
      lookupRun (rs.foldl (fun acc r => ingestRecord acc sim run r) d) sim' run' =
        lookupRun d sim' run' := by
  induction rs with
  | nil => intro d sim run sim' run' _; rfl
  | cons r rs ih =>
    intro d sim run sim' run' h
    rw [List.foldl_cons, ih _ sim run sim' run' h, lookupRun_ingestRecord_ne d sim run r sim' run' h]

theorem lookupRun_loadEntry_self (d : GatlingData) (e : RunInput) :
    lookupRun (loadEntry d e) e.1 e.2.1 =
      some ((e.2.2.filterMap recordEvent).foldl stepRun ((lookupRun d e.1 e.2.1).getD [])) := by
  rw [loadEntry]
  exact lookupRun_foldl_ingest_self e.2.2 _ e.1 e.2.1 _ (lookupRun_registerRun_self d e.1 e.2.1)

theorem lookupRun_loadEntry_ne (d : GatlingData) (e : RunInput) (sim run : String)
    (h : (sim, run) ≠ (e.1, e.2.1)) :
    lookupRun (loadEntry d e) sim run = lookupRun d sim run := by
  rw [loadEntry, lookupRun_foldl_ingest_ne e.2.2 _ e.1 e.2.1 sim run h,
    lookupRun_registerRun_ne d e.1 e.2.1 sim run h]

theorem run_events_cons_self (e : RunInput) (es : List RunInput) (sim run : String)
    (h : e.1 = sim ∧ e.2.1 = run) :
    run_events (e :: es) sim run = e.2.2.filterMap recordEvent ++ run_events es sim run := by
  rw [run_events, List.flatMap_cons, if_pos h, run_events]

theorem run_events_cons_ne (e : RunInput) (es : List RunInput) (sim run : String)
    (h : ¬(e.1 = sim ∧ e.2.1 = run)) :
    run_events (e :: es) sim run = run_events es sim run := by
  rw [run_events, List.flatMap_cons, if_neg h, List.nil_append, run_events]

theorem lookupRun_foldl_loadEntry (input : List RunInput) :
    ∀ (d : GatlingData) (sim run : String),
      lookupRun (input.foldl loadEntry d) sim run =
        match lookupRun d sim run with
        | some st => some ((run_events input sim run).foldl stepRun st)
        | none =>
          if (sim, run) ∈ entryKeys input
          then some (buildRun (run_events input sim run)) else none := by
  induction input with
  | nil =>
    intro d sim run
    cases h : lookupRun d sim run <;> simp [run_events, entryKeys, h, buildRun]
  | cons e es ih =>
    intro d sim run
    rw [List.foldl_cons, ih]
    by_cases he : (sim, run) = (e.1, e.2.1)
    · have hs : sim = e.1 := congrArg Prod.fst he
      have hr : run = e.2.1 := congrArg Prod.snd he
      subst hs
      subst hr
      have hre := run_events_cons_self e es e.1 e.2.1 ⟨rfl, rfl⟩
      have h1 := lookupRun_loadEntry_self d e
      cases h : lookupRun d e.1 e.2.1 with
      | some st =>
        rw [h, Option.getD_some] at h1
        rw [h1]
        dsimp only
        rw [hre, List.foldl_append]
      | none =>
        rw [h, Option.getD_none] at h1
        rw [h1]
        dsimp only
        have hmem : (e.1, e.2.1) ∈ entryKeys (e :: es) := by
          rw [entryKeys, List.map_cons]
          exact List.mem_cons_self _ _
        rw [hre, if_pos hmem, buildRun, List.foldl_append]
    · have hcond : ¬(e.1 = sim ∧ e.2.1 = run) := by
        intro hc
        exact he (by rw [hc.1, hc.2])
      rw [lookupRun_loadEntry_ne d e sim run he, run_events_cons_ne e es sim run hcond]
      cases h : lookupRun d sim run with
      | some st => rfl
      | none =>
        have hiff : (sim, run) ∈ entryKeys (e :: es) ↔ (sim, run) ∈ entryKeys es := by
          simp only [entryKeys, List.map_cons, List.mem_cons]
          exact or_iff_right he
        exact (if_congr hiff.symm rfl rfl)

theorem run_events_nil_of_not_mem (input : List RunInput) (sim run : String)
    (h : (sim, run) ∉ entryKeys input) : run_events input sim run = [] := by
  induction input with
  | nil => rfl
  | cons e es ih =>
    have hne : (sim, run) ≠ (e.1, e.2.1) := by
      intro hh
      exact h (by rw [entryKeys, List.map_cons]; exact hh ▸ List.mem_cons_self _ _)
    have hcond : ¬(e.1 = sim ∧ e.2.1 = run) := by
      intro hc
      exact hne (by rw [hc.1, hc.2])
    rw [run_events_cons_ne e es sim run hcond]
    exact ih (fun hm => h (by rw [entryKeys, List.map_cons]; exact List.mem_cons_of_mem _ hm))

theorem lookupRun_load (input : List RunInput) (sim run : String) :
    lookupRun (load_gatling_data input) sim run =
      if (sim, run) ∈ entryKeys input
      then some (buildRun (run_events input sim run)) else none := by
  rw [load_gatling_data, lookupRun_foldl_loadEntry]
  have h0 : lookupRun ([] : GatlingData) sim run = none := rfl
  rw [h0]

theorem get_requests_load (input : List RunInput) (sim run : String) :
    get_requests (load_gatling_data input) sim run
      = firstSeen ((run_events input sim run).map Prod.fst) := by
  rw [get_requests, lookupRun_load]
  by_cases hm : (sim, run) ∈ entryKeys input
  · rw [if_pos hm, Option.getD_some]
    exact keysOf_buildRun _
  · rw [if_neg hm, Option.getD_none, run_events_nil_of_not_mem input sim run hm]
    rfl

theorem keysOf_registerRun (d : GatlingData) (sim run : String) :
    keysOf (registerRun d sim run) = seenStep (keysOf d) sim := by
  rw [registerRun, keysOf_upsert, seenStep]

theorem keysOf_ingestRecord_of_mem (d : GatlingData) (sim run : String) (r : LogRecord)
    (h : sim ∈ keysOf d) : keysOf (ingestRecord d sim run r) = keysOf d := by
  cases hr : recordEvent r with
  | none => rw [ingestRecord, hr]
  | some pt => rw [ingestRecord, hr, keysOf_upsert, if_pos h]

theorem keysOf_foldl_ingest (rs : List LogRecord) :
    ∀ (d : GatlingData) (sim run : String), sim ∈ keysOf d →
      keysOf (rs.foldl (fun acc r => ingestRecord acc sim run r) d) = keysOf d := by
  induction rs with
  | nil => intro d sim run _; rfl
  | cons r rs ih =>
    intro d sim run h
    rw [List.foldl_cons, ih _ sim run (by rw [keysOf_ingestRecord_of_mem d sim run r h]; exact h),
      keysOf_ingestRecord_of_mem d sim run r h]

theorem mem_keysOf_registerRun (d : GatlingData) (sim run : String) :
    sim ∈ keysOf (registerRun d sim run) := by
  rw [registerRun]
  exact mem_keysOf_upsert_self d sim [] _

theorem keysOf_loadEntry (d : GatlingData) (e : RunInput) :
    keysOf (loadEntry d e) = seenStep (keysOf d) e.1 := by
  rw [loadEntry, keysOf_foldl_ingest e.2.2 _ e.1 e.2.1 (mem_keysOf_registerRun d e.1 e.2.1),
    keysOf_registerRun]

theorem get_simulations_load (input : List RunInput) :
    get_simulations (load_gatling_data input) = firstSeen (input.map (fun e => e.1)) := by
  have main : ∀ d : GatlingData, keysOf (input.foldl loadEntry d)
      = (input.map (fun e => e.1)).foldl seenStep (keysOf d) := by
    induction input with
    | nil => intro d; rfl
    | cons e es ih =>
      intro d
      rw [List.foldl_cons, List.map_cons, List.foldl_cons, ih, keysOf_loadEntry]
  exact main []

theorem lookupA_ingestRecord_sim_ne (d : GatlingData) (sim run : String) (r : LogRecord)
    (sim' : String) (h : sim' ≠ sim) :
    lookupA (ingestRecord d sim run r) sim' = lookupA d sim' := by
  cases hr : recordEvent r with
  | none => rw [ingestRecord, hr]
  | some pt => rw [ingestRecord, hr, lookupA_upsert_ne _ _ _ _ _ h]

theorem lookupA_foldl_ingest_sim_ne (rs : List LogRecord) :
    ∀ (d : GatlingData) (sim run sim' : String), sim' ≠ sim →
      lookupA (rs.foldl (fun acc r => ingestRecord acc sim run r) d) sim' = lookupA d sim' := by
  induction rs with
  | nil => intro d sim run sim' _; rfl
  | cons r rs ih =>
    intro d sim run sim' h
    rw [List.foldl_cons, ih _ sim run sim' h, lookupA_ingestRecord_sim_ne d sim run r sim' h]

theorem lookupA_loadEntry_sim_ne (d : GatlingData) (e : RunInput) (sim : String)
    (h : sim ≠ e.1) : lookupA (loadEntry d e) sim = lookupA d sim := by
  rw [loadEntry, lookupA_foldl_ingest_sim_ne e.2.2 _ e.1 e.2.1 sim h, registerRun,
    lookupA_upsert_ne _ _ _ _ _ h]

theorem simKeys_ingestRecord_of_mem (d : GatlingData) (sim run : String) (r : LogRecord)
    (h : run ∈ keysOf ((lookupA d sim).getD [])) :
    keysOf ((lookupA (ingestRecord d sim run r) sim).getD [])
      = keysOf ((lookupA d sim).getD []) := by
  cases hr : recordEvent r with
  | none => rw [ingestRecord, hr]
  | some pt =>
    rw [ingestRecord, hr, lookupA_upsert_self, Option.getD_some, keysOf_upsert, if_pos h]

theorem simKeys_foldl_ingest (rs : List LogRecord) :
    ∀ (d : GatlingData) (sim run : String), run ∈ keysOf ((lookupA d sim).getD []) →
      keysOf ((lookupA (rs.foldl (fun acc r => ingestRecord acc sim run r) d) sim).getD [])
        = keysOf ((lookupA d sim).getD []) := by
  induction rs with
  | nil => intro d sim run _; rfl
  | cons r rs ih =>
    intro d sim run h
    rw [List.foldl_cons,
      ih _ sim run (by rw [simKeys_ingestRecord_of_mem d sim run r h]; exact h),
      simKeys_ingestRecord_of_mem d sim run r h]

theorem simKeys_registerRun (d : GatlingData) (sim run : String) :
    keysOf ((lookupA (registerRun d sim run) sim).getD [])
      = seenStep (keysOf ((lookupA d sim).getD [])) run := by
  rw [registerRun, lookupA_upsert_self, Option.getD_some, keysOf_upsert, seenStep]

theorem mem_simKeys_registerRun (d : GatlingData) (sim run : String) :
    run ∈ keysOf ((lookupA (registerRun d sim run) sim).getD []) := by
  rw [registerRun, lookupA_upsert_self, Option.getD_some]
  exact mem_keysOf_upsert_self _ run [] _

theorem simKeys_loadEntry_self (d : GatlingData) (e : RunInput) (sim : String) (h : e.1 = sim) :
    keysOf ((lookupA (loadEntry d e) sim).getD [])
      = seenStep (keysOf ((lookupA d sim).getD [])) e.2.1 := by
  subst h
  rw [loadEntry, simKeys_foldl_ingest e.2.2 _ e.1 e.2.1 (mem_simKeys_registerRun d e.1 e.2.1),
    simKeys_registerRun]

theorem get_runs_load (input : List RunInput) (sim : String) :
    get_runs (load_gatling_data input) sim = firstSeen (runsOf input sim) := by
  have main : ∀ d : GatlingData, keysOf ((lookupA (input.foldl loadEntry d) sim).getD [])
      = (runsOf input sim).foldl seenStep (keysOf ((lookupA d sim).getD [])) := by
    induction input with
    | nil => intro d; rfl
    | cons e es ih =>
      intro d
      rw [List.foldl_cons, ih]
      by_cases he : e.1 = sim
      · have hrs : runsOf (e :: es) sim = e.2.1 :: runsOf es sim := by
          rw [runsOf, List.filter_cons, if_pos (by simp [he]), List.map_cons, runsOf]
        rw [hrs, List.foldl_cons, simKeys_loadEntry_self d e sim he]
      · have hrs : runsOf (e :: es) sim = runsOf es sim := by
          rw [runsOf, List.filter_cons, if_neg (by simp [he]), runsOf]
        rw [hrs, lookupA_loadEntry_sim_ne d e sim (fun hh => he hh.symm)]
  exact main []

/-! ## Lemmas: enumeration keys are distinct after a load -/

theorem seenStep_nodup {α : Type} [DecidableEq α] (acc : List α) (x : α) (h : acc.Nodup) :
    (seenStep acc x).Nodup := by
  rw [seenStep]
  by_cases hm : x ∈ acc
  · rw [if_pos hm]; exact h
  · rw [if_neg hm]
    rw [List.nodup_append]
    exact ⟨h, List.nodup_singleton x, fun a ha hb => hm ((List.mem_singleton.mp hb) ▸ ha)⟩

theorem foldl_seenStep_nodup {α : Type} [DecidableEq α] (l : List α) :
    ∀ acc : List α, acc.Nodup → (l.foldl seenStep acc).Nodup := by
  induction l with
  | nil => intro acc h; exact h
  | cons x xs ih =>
    intro acc h
    rw [List.foldl_cons]
    exact ih _ (seenStep_nodup acc x h)

theorem firstSeen_nodup {α : Type} [DecidableEq α] (l : List α) : (firstSeen l).Nodup :=
  foldl_seenStep_nodup l [] List.nodup_nil

theorem load_sims_nodup (input : List RunInput) :
    (keysOf (load_gatling_data input)).Nodup := by
  have h : keysOf (load_gatling_data input) = get_simulations (load_gatling_data input) := rfl
  rw [h, get_simulations_load]
  exact firstSeen_nodup _

theorem load_runs_nodup (input : List RunInput) (sim : String) :
    (keysOf ((lookupA (load_gatling_data input) sim).getD [])).Nodup := by
  have h : keysOf ((lookupA (load_gatling_data input) sim).getD [])
      = get_runs (load_gatling_data input) sim := rfl
  rw [h, get_runs_load]
  exact firstSeen_nodup _

theorem load_requests_nodup (input : List RunInput) (sim run : String) :
    (keysOf ((lookupRun (load_gatling_data input) sim run).getD [])).Nodup := by
  have h : keysOf ((lookupRun (load_gatling_data input) sim run).getD [])
      = get_requests (load_gatling_data input) sim run := rfl
  rw [h, get_requests_load]
  exact firstSeen_nodup _

theorem selection_keys_load_nodup (input : List RunInput) :
    (selection_keys (load_gatling_data input)).Nodup := by
  rw [selection_keys]
  rw [List.nodup_flatMap]
  constructor
  · intro spair hsp
    rw [List.nodup_flatMap]
    have hS : lookupA (load_gatling_data input) spair.1 = some spair.2 :=
      lookupA_of_mem_nodup _ spair.1 spair.2 (load_sims_nodup input) hsp
    have hruns_nd : (keysOf spair.2).Nodup := by
      have hh := load_runs_nodup input spair.1
      rw [hS, Option.getD_some] at hh
      exact hh
    constructor
    · intro rpair hrp
      have hR : lookupA spair.2 rpair.1 = some rpair.2 :=
        lookupA_of_mem_nodup spair.2 rpair.1 rpair.2 hruns_nd hrp
      have hreq_nd : (keysOf rpair.2).Nodup := by
        have hh := load_requests_nodup input spair.1 rpair.1
        rw [lookupRun, hS, Option.some_bind, hR, Option.getD_some] at hh
        exact hh
      exact List.Nodup.map (fun q1 q2 hq => congrArg (fun k => k.2.2) hq) hreq_nd
    · have hpw : spair.2.Pairwise (fun a b => a.1 ≠ b.1) := List.pairwise_map.mp hruns_nd
      refine hpw.imp ?_
      intro a b hne x hxa hxb
      obtain ⟨qa, -, hqa⟩ := List.mem_map.mp hxa
      obtain ⟨qb, -, hqb⟩ := List.mem_map.mp hxb
      apply hne
      have h1 : x.2.1 = a.1 := by rw [← hqa]
      have h2 : x.2.1 = b.1 := by rw [← hqb]
      rw [← h1, h2]
  · have hpw : (load_gatling_data input).Pairwise (fun a b => a.1 ≠ b.1) :=
      List.pairwise_map.mp (load_sims_nodup input)
    refine hpw.imp ?_
    intro a b hne x hxa hxb
    have h1 : x.1 = a.1 := by
      obtain ⟨rp, -, hrp⟩ := List.mem_flatMap.mp hxa
      obtain ⟨q, -, hq⟩ := List.mem_map.mp hrp
      rw [← hq]
    have h2 : x.1 = b.1 := by
      obtain ⟨rp, -, hrp⟩ := List.mem_flatMap.mp hxb
      obtain ⟨q, -, hq⟩ := List.mem_map.mp hrp
      rw [← hq]
    exact hne (h1 ▸ h2)

/-! ## Claim C3 -/

/-- C3: in the layout of any loaded store, the trace indices at which
the flat trace list carries a series of a selectable request are
exactly the recorded visibility range of that request: the contiguous
integer interval from its start index s to its end index e (the list
List.range' s (e + 1 - s)), with no gaps, because all series of one
request are emitted consecutively. -/
theorem C3_contiguous_visibility (input : List RunInput) (k : SelKey) (s e : Nat)
    (hm : (k, (s, e)) ∈ (plot_percentiles_stacked (load_gatling_data input)).2) :
    semantic_indices (plot_percentiles_stacked (load_gatling_data input)).1 k
      = List.range' s (e + 1 - s) :=
  (semantic_indices_of_range (selection_keys (load_gatling_data input)) 0 k s e
    (selection_keys_load_nodup input) hm).1

/-- Witness for C3: in the concrete layout the request C|D|E|X has
range (6, 11) and its series sit exactly at indices 6 to 11. -/
theorem C3_contiguous_visibility_witness :
    semantic_indices (plot_percentiles_stacked (load_gatling_data c1_input)).1
      ("S", "R", "C|D|E|X") = List.range' 6 (11 + 1 - 6) :=
  C3_contiguous_visibility c1_input ("S", "R", "C|D|E|X") 6 11 (by decide)

/-! ## Claim C6 -/

/-- C6: loading is a pure function of the input, so two loads of
identical input enumerate simulations, runs and requests identically;
and each enumeration is the first-seen insertion order of its keys in
the input (not sorted). -/
theorem C6_order_stability :
    (∀ input1 input2 : List RunInput, input1 = input2 →
      get_simulations (load_gatling_data input1) = get_simulations (load_gatling_data input2)
      ∧ ∀ sim run : String,
          get_runs (load_gatling_data input1) sim = get_runs (load_gatling_data input2) sim
          ∧ get_requests (load_gatling_data input1) sim run
            = get_requests (load_gatling_data input2) sim run)
    ∧ (∀ input, get_simulations (load_gatling_data input) = firstSeen (input.map (fun e => e.1)))
    ∧ (∀ input sim, get_runs (load_gatling_data input) sim = firstSeen (runsOf input sim))
    ∧ (∀ input sim run, get_requests (load_gatling_data input) sim run
        = firstSeen ((run_events input sim run).map Prod.fst)) := by
  refine ⟨?_, get_simulations_load, get_runs_load, get_requests_load⟩
  intro i1 i2 h
  subst h
  exact ⟨rfl, fun sim run => ⟨rfl, rfl⟩⟩

/-- Witness for C6: two loads of the concrete input enumerate alike,
and the request order is the first-seen order of its paths. -/
theorem C6_order_stability_witness :
    get_simulations (load_gatling_data c1_input) = get_simulations (load_gatling_data c1_input)
    ∧ get_requests (load_gatling_data c1_input) "S" "R"
        = firstSeen ((run_events c1_input "S" "R").map Prod.fst) :=
  ⟨(C6_order_stability.1 c1_input c1_input rfl).1, C6_order_stability.2.2.2 c1_input "S" "R"⟩

/-! ## Claim C7 -/

/-- C7: the statistics computation reads a sorted copy and returns the
aggregate unchanged, and the stored observation sequence it leaves
behind is the arrival-order (log-order) response-time list of its
path. -/
theorem C7_percentiles_frame (input : List RunInput) (sim run path : String)
    (a : RequestAggregate)
    (h : get_request_data (load_gatling_data input) sim run path = .ok a) :
    (compute_percentiles a).2.response_times = a.response_times
    ∧ a.response_times = timesFor (run_events input sim run) path := by
  refine ⟨rfl, ?_⟩
  rw [get_request_data, lookupRun_load] at h
  by_cases hm : (sim, run) ∈ entryKeys input
  · rw [if_pos hm] at h
    dsimp only at h
    cases hP : lookupA (buildRun (run_events input sim run)) path with
    | none =>
      rw [hP] at h
      cases h
    | some obs =>
      rw [hP] at h
      injection h with ha
      have hobs := lookupA_foldl_stepRun (run_events input sim run) [] path
      have h0 : lookupA ([] : RunStore) path = none := rfl
      rw [h0] at hobs
      dsimp only at hobs
      have hb : (run_events input sim run).foldl stepRun [] = buildRun (run_events input sim run) := rfl
      rw [hb, hP] at hobs
      by_cases hmem : path ∈ (run_events input sim run).map Prod.fst
      · rw [if_pos hmem] at hobs
        injection hobs with hoo
        rw [← ha, hoo]
        exact rfl
      · rw [if_neg hmem] at hobs
        cases hobs
  · rw [if_neg hm] at h
    cases h

/-- Witness for C7: the stored observations of C|D|E|X after loading
the concrete input are [3, 4], the log order of its two records. -/
theorem C7_percentiles_frame_witness :
    (compute_percentiles (mkAggregate [3, 4])).2.response_times
        = (mkAggregate [3, 4]).response_times
    ∧ (mkAggregate [3, 4]).response_times = timesFor (run_events c1_input "S" "R") "C|D|E|X" :=
  C7_percentiles_frame c1_input "S" "R" "C|D|E|X" (mkAggregate [3, 4]) (by rfl)
